import Mathlib

/-!
# Verification of the TextTuner style-metric and deviation-scoring pipeline

Shallow embedding of the core of the TextTuner repository:

* `src/core/statistics_calculator.py` — `calculate_style_deviation`,
  `calculate_overall_score`;
* `src/models/style_models.py` — `StyleProfile.calculate_similarity`;
* `src/core/text_analyzer.py` — the five stylistic metrics and `analyze_text`;
* `src/utils/text_preprocessor.py` — `clean_text`, `tokenize_words`,
  `split_sentences`.

Python floats are modelled as rationals (`ℚ`), Python strings as `String` /
`List Char`, Python dicts as association lists in insertion order, and a raised
exception as `Option`/`Except` failure.
-/

/-- A word token: the character list of one word. -/
abbrev Token := List Char

/-- One entry of a profile's `target_metrics` mapping: the `target`, `tolerance`
and `weight` fields read by the scorer (`target_config.get` in the source). -/
structure TargetConfig where
  target : ℚ
  tolerance : ℚ
  weight : ℚ
deriving DecidableEq

/-- The per-metric deviation record built by `calculate_style_deviation`
(`statistics_calculator.py`, lines 58–94). -/
structure DeviationRecord where
  current : ℚ
  target : ℚ
  absolute_diff : ℚ
  relative_diff : ℚ
  within_tolerance : Bool
  tolerance : ℚ
  weight : ℚ
deriving DecidableEq

/-- A Python value stored in a metrics dictionary: `StyleMetrics.to_dict` holds
five float entries and one nested dict (`pos_frequency`). Arithmetic on a
`dict` value raises a `TypeError` in Python; the embedding returns `none`
there. -/
inductive Val where
  | num (q : ℚ)
  | dict (m : List (String × ℚ))
deriving DecidableEq

/-- The `StyleMetrics` dataclass of `text_models.py`. -/
structure StyleMetrics where
  lexical_diversity : ℚ
  formality_score : ℚ
  readability_index : ℚ
  pos_frequency : List (String × ℚ)
  sentence_length_avg : ℚ
  word_length_avg : ℚ
deriving DecidableEq

/-- `StyleMetrics.to_dict` of `text_models.py`: the six fields in source
order, `pos_frequency` as a nested dictionary. -/
def StyleMetrics.to_dict (m : StyleMetrics) : List (String × Val) :=
  [("lexical_diversity", Val.num m.lexical_diversity),
   ("formality_score", Val.num m.formality_score),
   ("readability_index", Val.num m.readability_index),
   ("pos_frequency", Val.dict m.pos_frequency),
   ("sentence_length_avg", Val.num m.sentence_length_avg),
   ("word_length_avg", Val.num m.word_length_avg)]

/-- A purely numeric metrics dictionary, viewed as a Python dict of floats. -/
def numDict (m : List (String × ℚ)) : List (String × Val) :=
  m.map (fun p => (p.1, Val.num p.2))

/-- `StatisticsCalculator.calculate_style_deviation`
(`statistics_calculator.py`, lines 58–94): iterate over the target mapping in
order; a metric name absent from `current` is skipped; otherwise build the
deviation record with `absolute_diff = |current − target|`,
`relative_diff = absolute_diff / target` if `target ≠ 0` else `0.0`, and
`within_tolerance = (absolute_diff ≤ tolerance)`. A `dict`-valued current
metric would raise a `TypeError` at `abs(current_value - target_value)`,
modelled as `none`. -/
def calculate_style_deviation :
    List (String × Val) → List (String × TargetConfig) →
      Option (List (String × DeviationRecord))
  | _, [] => some []
  | current_metrics, (metric_name, target_config) :: rest =>
    match current_metrics.lookup metric_name with
    | none => calculate_style_deviation current_metrics rest
    | some (Val.dict _) => none
    | some (Val.num current_value) =>
      let absolute_diff := |current_value - target_config.target|
      let relative_diff :=
        if target_config.target ≠ 0 then absolute_diff / target_config.target
        else 0
      (calculate_style_deviation current_metrics rest).map
        (fun tail =>
          (metric_name,
           { current := current_value
             target := target_config.target
             absolute_diff := absolute_diff
             relative_diff := relative_diff
             within_tolerance := decide (absolute_diff ≤ target_config.tolerance)
             tolerance := target_config.tolerance
             weight := target_config.weight }) :: tail)

/-- The per-metric score used in the aggregation loop of
`calculate_overall_score`: `max(0.0, 1.0 - min(relative_diff, 1.0))`. -/
def metricScore (r : DeviationRecord) : ℚ :=
  max 0 (1 - min r.relative_diff 1)

/-- `StatisticsCalculator.calculate_overall_score`
(`statistics_calculator.py`, lines 96–124): return `0.0` on an empty mapping,
otherwise accumulate `weighted_scores` and `total_weight` over the records in
order, return `0.0` when `total_weight == 0`, else
`sum(weighted_scores) / total_weight`. -/
def calculate_overall_score
    (deviation_analysis : List (String × DeviationRecord)) : ℚ :=
  if deviation_analysis.isEmpty then 0
  else
    let acc := deviation_analysis.foldl
      (fun (acc : List ℚ × ℚ) p =>
        (acc.1 ++ [metricScore p.2 * p.2.weight], acc.2 + p.2.weight))
      ([], 0)
    if acc.2 = 0 then 0 else acc.1.sum / acc.2

/-- Total weight of a deviation-analysis mapping. -/
def totalWeight (deviation_analysis : List (String × DeviationRecord)) : ℚ :=
  (deviation_analysis.map (fun p => p.2.weight)).sum

/-- The weighted scores accumulated by the loop of `calculate_overall_score`,
written as a straight sum. -/
def weightedScoreSum (deviation_analysis : List (String × DeviationRecord)) : ℚ :=
  (deviation_analysis.map (fun p => metricScore p.2 * p.2.weight)).sum

theorem overall_foldl_eq (l : List (String × DeviationRecord))
    (ws : List ℚ) (tw : ℚ) :
    l.foldl
      (fun (acc : List ℚ × ℚ) p =>
        (acc.1 ++ [metricScore p.2 * p.2.weight], acc.2 + p.2.weight))
      (ws, tw) =
      (ws ++ l.map (fun p => metricScore p.2 * p.2.weight),
       tw + (l.map (fun p => p.2.weight)).sum) := by
  induction l generalizing ws tw with
  | nil => simp
  | cons h t ih => simp [ih, add_assoc]

theorem numDict_lookup (m : List (String × ℚ)) (k : String) :
    (numDict m).lookup k = (m.lookup k).map Val.num := by
  induction m with
  | nil => rfl
  | cons p t ih =>
    cases hpk : k == p.1 with
    | false =>
      simp only [numDict, List.map_cons, List.lookup, hpk]
      simpa [numDict] using ih
    | true => simp [numDict, List.lookup, hpk]

theorem calculate_style_deviation_cons (c : List (String × Val)) (n : String)
    (cfg : TargetConfig) (rest : List (String × TargetConfig)) :
    calculate_style_deviation c ((n, cfg) :: rest) =
      match c.lookup n with
      | none => calculate_style_deviation c rest
      | some (Val.dict _) => none
      | some (Val.num cv) =>
        (calculate_style_deviation c rest).map
          (fun tail =>
            (n,
             { current := cv
               target := cfg.target
               absolute_diff := |cv - cfg.target|
               relative_diff :=
                 if cfg.target ≠ 0 then |cv - cfg.target| / cfg.target else 0
               within_tolerance := decide (|cv - cfg.target| ≤ cfg.tolerance)
               tolerance := cfg.tolerance
               weight := cfg.weight }) :: tail) := rfl

/-- C2: the Deviation Scorer, applied to a purely numeric metrics mapping,
never fails, and produces a record exactly for each metric name present in
both the target mapping and the current metrics (a name present in only one
of them is silently skipped), with `absolute_diff = |current − target|`,
`relative_diff = absolute_diff / target` when the target is nonzero and `0`
when it is `0`, and `within_tolerance` true if and only if
`absolute_diff ≤ tolerance`. -/
theorem calculate_style_deviation_spec (current : List (String × ℚ))
    (targets : List (String × TargetConfig)) (name : String) :
    ∃ d, calculate_style_deviation (numDict current) targets = some d ∧
      (∀ p ∈ d, ((p : String × DeviationRecord).2.within_tolerance = true ↔
        p.2.absolute_diff ≤ p.2.tolerance)) ∧
      ((targets.lookup name = none ∨ current.lookup name = none) →
        d.lookup name = none) ∧
      (∀ cfg cv, targets.lookup name = some cfg → current.lookup name = some cv →
        ∃ r, d.lookup name = some r ∧
          r.current = cv ∧
          r.target = cfg.target ∧
          r.absolute_diff = |cv - cfg.target| ∧
          r.relative_diff =
            (if cfg.target = 0 then 0 else |cv - cfg.target| / cfg.target) ∧
          (r.within_tolerance = true ↔ |cv - cfg.target| ≤ cfg.tolerance) ∧
          r.tolerance = cfg.tolerance ∧
          r.weight = cfg.weight) := by
  induction targets with
  | nil => exact ⟨[], rfl, by simp, by simp [List.lookup], by simp [List.lookup]⟩
  | cons hd rest ih =>
    obtain ⟨n, cfg⟩ := hd
    obtain ⟨d, hdev, hwt, hnone, hsome⟩ := ih
    have hcurV : ∀ v, current.lookup n = v →
        (numDict current).lookup n = v.map Val.num := by
      intro v hv; rw [numDict_lookup, hv]
    cases hcur : current.lookup n with
    | none =>
      have hstep : calculate_style_deviation (numDict current)
          ((n, cfg) :: rest) = some d := by
        rw [calculate_style_deviation_cons, hcurV none hcur]
        exact hdev
      refine ⟨d, hstep, hwt, ?_, ?_⟩
      · intro hor
        by_cases hname : name = n
        · subst hname
          exact hnone (Or.inr hcur)
        · have hne : (name == n) = false := beq_eq_false_iff_ne.mpr hname
          apply hnone
          rcases hor with h | h
          · exact Or.inl (by simpa [List.lookup, hne] using h)
          · exact Or.inr h
      · intro cfg₀ cv hlt hlc
        by_cases hname : name = n
        · subst hname
          rw [hcur] at hlc; cases hlc
        · have hne : (name == n) = false := beq_eq_false_iff_ne.mpr hname
          exact hsome cfg₀ cv (by simpa [List.lookup, hne] using hlt) hlc
    | some cv =>
      refine ⟨(n,
        { current := cv
          target := cfg.target
          absolute_diff := |cv - cfg.target|
          relative_diff :=
            if cfg.target ≠ 0 then |cv - cfg.target| / cfg.target else 0
          within_tolerance := decide (|cv - cfg.target| ≤ cfg.tolerance)
          tolerance := cfg.tolerance
          weight := cfg.weight }) :: d, ?_, ?_, ?_, ?_⟩
      · rw [calculate_style_deviation_cons, hcurV (some cv) hcur]
        rw [hdev]
        rfl
      · intro p hp
        rcases List.mem_cons.mp hp with h | h
        · subst h; simp
        · exact hwt p h
      · intro hor
        by_cases hname : name = n
        · subst hname
          rcases hor with h | h
          · simp [List.lookup] at h
          · rw [hcur] at h; cases h
        · have hne : (name == n) = false := beq_eq_false_iff_ne.mpr hname
          have hd' : d.lookup name = none := by
            apply hnone
            rcases hor with h | h
            · exact Or.inl (by simpa [List.lookup, hne] using h)
            · exact Or.inr h
          simpa [List.lookup, hne] using hd'
      · intro cfg₀ cv₀ hlt hlc
        by_cases hname : name = n
        · subst hname
          simp only [List.lookup, beq_self_eq_true] at hlt
          rw [hcur] at hlc
          have hcc : cfg = cfg₀ := by injection hlt
          have hvv : cv = cv₀ := by injection hlc
          subst hcc; subst hvv
          refine ⟨{ current := cv
                    target := cfg.target
                    absolute_diff := |cv - cfg.target|
                    relative_diff :=
                      if cfg.target ≠ 0 then |cv - cfg.target| / cfg.target
                      else 0
                    within_tolerance :=
                      decide (|cv - cfg.target| ≤ cfg.tolerance)
                    tolerance := cfg.tolerance
                    weight := cfg.weight },
            by simp [List.lookup], rfl, rfl, rfl, ?_, ?_, rfl, rfl⟩
          · by_cases h0 : cfg.target = 0 <;> simp [h0]
          · simp
        · have hne : (name == n) = false := beq_eq_false_iff_ne.mpr hname
          obtain ⟨r, hr, hfields⟩ := hsome cfg₀ cv₀
            (by simpa [List.lookup, hne] using hlt) hlc
          exact ⟨r, by simpa [List.lookup, hne] using hr, hfields⟩

/-- Witness for C2 at the concrete mapping `{a ↦ 1}` against the target
`{a ↦ (target 2, tolerance 1, weight 1)}`. -/
theorem calculate_style_deviation_spec_witness :
    ∃ d, calculate_style_deviation (numDict [("a", (1 : ℚ))])
        [("a", ⟨2, 1, 1⟩)] = some d ∧
      ∃ r, d.lookup "a" = some r ∧ r.absolute_diff = 1 ∧
        r.relative_diff = 1 / 2 ∧ r.within_tolerance = true := by
  obtain ⟨d, hd, _, _, hsome⟩ :=
    calculate_style_deviation_spec [("a", (1 : ℚ))] [("a", ⟨2, 1, 1⟩)] "a"
  obtain ⟨r, hr, _, _, habs, hrel, hwt, _, _⟩ :=
    hsome ⟨2, 1, 1⟩ 1 (by decide) (by decide)
  refine ⟨d, hd, r, hr, ?_, ?_, ?_⟩
  · rw [habs]; norm_num
  · rw [hrel]; norm_num
  · rw [hwt]; norm_num

theorem overall_score_closed_form (dev : List (String × DeviationRecord)) :
    calculate_overall_score dev =
      if dev = [] ∨ totalWeight dev = 0 then 0
      else weightedScoreSum dev / totalWeight dev := by
  unfold calculate_overall_score
  rw [overall_foldl_eq]
  rcases dev with _ | ⟨h, t⟩
  · simp [totalWeight]
  · simp only [List.isEmpty_cons, List.nil_append, Bool.false_eq_true,
      if_false, totalWeight, weightedScoreSum, zero_add]
    by_cases hw : ((h :: t).map (fun p => p.2.weight)).sum = 0
    · simp [hw]
    · simp [hw]

/-- C1: for every deviation-analysis mapping, `calculate_overall_score` equals
the weighted mean `Σ(metric_score × weight) / Σ(weight)` of the per-metric
scores `max(0, 1 − min(relative_diff, 1))`, and returns `0` when the mapping
is empty or the total weight is `0`. -/
theorem calculate_overall_score_eq_weighted_mean
    (dev : List (String × DeviationRecord)) :
    calculate_overall_score dev =
      if dev = [] ∨ totalWeight dev = 0 then 0
      else weightedScoreSum dev / totalWeight dev :=
  overall_score_closed_form dev

/-- `StyleProfile.calculate_similarity` (`style_models.py`, lines 50–69),
with the running `similarity_score` and `metrics_compared` accumulators of
the Python loop as explicit arguments. Metrics absent from the text
dictionary or with `target ≤ 0` are skipped; a `dict`-valued current metric
with a positive target would raise a `TypeError` at `abs(...)`, modelled as
`none`. -/
def calcSimAux (text_dict : List (String × Val)) :
    List (String × TargetConfig) → ℚ → ℚ → Option ℚ
  | [], similarity_score, metrics_compared =>
    some (if metrics_compared > 0 then similarity_score / metrics_compared
          else 0)
  | (metric_name, target_config) :: rest, similarity_score, metrics_compared =>
    match text_dict.lookup metric_name with
    | none => calcSimAux text_dict rest similarity_score metrics_compared
    | some v =>
      if target_config.target > 0 then
        match v with
        | Val.dict _ => none
        | Val.num current_value =>
          let difference :=
            |current_value - target_config.target| / target_config.target
          calcSimAux text_dict rest
            (similarity_score + (1 - min difference 1) * target_config.weight)
            (metrics_compared + target_config.weight)
      else calcSimAux text_dict rest similarity_score metrics_compared

/-- `StyleProfile.calculate_similarity`, entry point: both accumulators start
at `0`. -/
def calculate_similarity (text_dict : List (String × Val))
    (target_metrics : List (String × TargetConfig)) : Option ℚ :=
  calcSimAux text_dict target_metrics 0 0

theorem calcSimAux_cons (td : List (String × Val)) (n : String)
    (cfg : TargetConfig) (rest : List (String × TargetConfig)) (s w : ℚ) :
    calcSimAux td ((n, cfg) :: rest) s w =
      match td.lookup n with
      | none => calcSimAux td rest s w
      | some v =>
        if cfg.target > 0 then
          match v with
          | Val.dict _ => none
          | Val.num cv =>
            calcSimAux td rest
              (s + (1 - min (|cv - cfg.target| / cfg.target) 1) * cfg.weight)
              (w + cfg.weight)
        else calcSimAux td rest s w := rfl

/-- Sum of the weights of the target metrics that overlap with the text
dictionary. -/
def overlapWeight (td : List (String × Val))
    (targets : List (String × TargetConfig)) : ℚ :=
  ((targets.filter (fun p => (td.lookup p.1).isSome)).map
    (fun p => p.2.weight)).sum

theorem totalWeight_of_deviation (td : List (String × Val)) :
    ∀ (targets : List (String × TargetConfig)) d,
      calculate_style_deviation td targets = some d →
        totalWeight d = overlapWeight td targets := by
  intro targets
  induction targets with
  | nil =>
    intro d hd
    cases hd
    simp [totalWeight, overlapWeight]
  | cons hd rest ih =>
    obtain ⟨n, cfg⟩ := hd
    intro d hdev
    rw [calculate_style_deviation_cons] at hdev
    cases hl : td.lookup n with
    | none =>
      rw [hl] at hdev
      rw [ih d hdev]
      simp [overlapWeight, hl]
    | some v =>
      cases v with
      | dict m => rw [hl] at hdev; cases hdev
      | num cv =>
        rw [hl] at hdev
        cases htl : calculate_style_deviation td rest with
        | none => rw [htl] at hdev; cases hdev
        | some tail =>
          rw [htl] at hdev
          cases hdev
          simp only [totalWeight, List.map_cons, List.sum_cons]
          rw [show ((tail.map (fun p => p.2.weight)).sum = totalWeight tail)
            from rfl, ih tail htl]
          simp [overlapWeight, hl]

/-- Closing step of `calcSimAux` expressed over a completed deviation list. -/
def finishScore (d : List (String × DeviationRecord)) (s w : ℚ) : ℚ :=
  if w + totalWeight d > 0 then (s + weightedScoreSum d) / (w + totalWeight d)
  else 0

theorem calcSimAux_eq_deviation_finish (td : List (String × Val)) :
    ∀ (targets : List (String × TargetConfig)),
      (∀ p ∈ targets, ((td.lookup (p : String × TargetConfig).1).isSome →
        p.2.target > 0)) →
      ∀ s w, calcSimAux td targets s w =
        (calculate_style_deviation td targets).map
          (fun d => finishScore d s w) := by
  intro targets
  induction targets with
  | nil =>
    intro _ s w
    simp [calcSimAux, calculate_style_deviation, finishScore, totalWeight,
      weightedScoreSum]
  | cons hd rest ih =>
    obtain ⟨n, cfg⟩ := hd
    intro hpos s w
    have hpos' : ∀ p ∈ rest, ((td.lookup (p : String × TargetConfig).1).isSome →
        p.2.target > 0) :=
      fun p hp => hpos p (List.mem_cons_of_mem _ hp)
    rw [calcSimAux_cons, calculate_style_deviation_cons]
    cases hl : td.lookup n with
    | none => exact ih hpos' s w
    | some v =>
      have ht : cfg.target > 0 :=
        hpos (n, cfg) (List.mem_cons_self _ _) (by simp [hl])
      cases v with
      | dict m => simp [ht]
      | num cv =>
        simp only [if_pos ht]
        rw [ih hpos'
          (s + (1 - min (|cv - cfg.target| / cfg.target) 1) * cfg.weight)
          (w + cfg.weight)]
        cases htl : calculate_style_deviation td rest with
        | none => rfl
        | some tail =>
          simp only [Option.map_some']
          congr 1
          have hrd : (if cfg.target ≠ 0 then |cv - cfg.target| / cfg.target
              else 0) = |cv - cfg.target| / cfg.target := by
            rw [if_pos (ne_of_gt ht)]
          have hms : metricScore
              { current := cv
                target := cfg.target
                absolute_diff := |cv - cfg.target|
                relative_diff :=
                  if cfg.target ≠ 0 then |cv - cfg.target| / cfg.target else 0
                within_tolerance := decide (|cv - cfg.target| ≤ cfg.tolerance)
                tolerance := cfg.tolerance
                weight := cfg.weight } =
              1 - min (|cv - cfg.target| / cfg.target) 1 := by
            unfold metricScore
            simp only [hrd]
            have h0 : (0 : ℚ) ≤ |cv - cfg.target| / cfg.target :=
              div_nonneg (abs_nonneg _) (le_of_lt ht)
            have : min (|cv - cfg.target| / cfg.target) 1 ≤ 1 := min_le_right _ _
            exact max_eq_right (by linarith)
          unfold finishScore
          simp only [totalWeight, weightedScoreSum, List.map_cons,
            List.sum_cons, hms]
          rw [show w + (cfg.weight +
              (tail.map (fun p => p.2.weight)).sum) =
              w + cfg.weight + (tail.map (fun p => p.2.weight)).sum by ring]
          rw [show s + ((1 - min (|cv - cfg.target| / cfg.target) 1) *
              cfg.weight +
              (tail.map (fun p => metricScore p.2 * p.2.weight)).sum) =
              s + (1 - min (|cv - cfg.target| / cfg.target) 1) * cfg.weight +
              (tail.map (fun p => metricScore p.2 * p.2.weight)).sum by ring]

/-- C3 amended: for every StyleMetrics value and every target mapping in
which each metric overlapping the metrics dictionary has a strictly positive
target, and whose overlapping weights have a nonnegative sum,
`StyleProfile.calculate_similarity` (the implementation invoked by
`TextTuner.analyze_text`) returns the similarity obtained by
`StatisticsCalculator.calculate_style_deviation` followed by
`StatisticsCalculator.calculate_overall_score` on the same inputs. -/
theorem calculate_similarity_refines_pipeline (m : StyleMetrics)
    (targets : List (String × TargetConfig))
    (hpos : ∀ p ∈ targets, ((m.to_dict.lookup (p : String × TargetConfig).1).isSome →
      p.2.target > 0))
    (hw : 0 ≤ overlapWeight m.to_dict targets) :
    calculate_similarity m.to_dict targets =
      (calculate_style_deviation m.to_dict targets).map
        calculate_overall_score := by
  unfold calculate_similarity
  rw [calcSimAux_eq_deviation_finish m.to_dict targets hpos 0 0]
  cases hdev : calculate_style_deviation m.to_dict targets with
  | none => rfl
  | some d =>
    simp only [Option.map_some']
    congr 1
    have htw : totalWeight d = overlapWeight m.to_dict targets :=
      totalWeight_of_deviation m.to_dict targets d hdev
    have htw0 : 0 ≤ totalWeight d := htw ▸ hw
    rw [overall_score_closed_form, finishScore]
    rcases lt_or_eq_of_le htw0 with hpos' | hzero
    · rw [if_pos (by linarith), if_neg]
      · simp
      · rintro (rfl | h)
        · simp [totalWeight] at hpos'
        · exact absurd h (ne_of_gt hpos')
    · rw [if_neg (by linarith), if_pos (Or.inr hzero.symm)]

/-- Witness for the amended C3 at a concrete metrics value and the profile
entry `lexical_diversity ↦ (target 1, tolerance 1, weight 1)`. -/
theorem calculate_similarity_refines_pipeline_witness :
    calculate_similarity
        (StyleMetrics.to_dict ⟨1, 0, 0, [], 0, 0⟩)
        [("lexical_diversity", ⟨1, 1, 1⟩)] =
      (calculate_style_deviation
        (StyleMetrics.to_dict ⟨1, 0, 0, [], 0, 0⟩)
        [("lexical_diversity", ⟨1, 1, 1⟩)]).map
        calculate_overall_score := by
  apply calculate_similarity_refines_pipeline
  · intro p hp
    rw [List.mem_singleton] at hp
    subst hp
    intro _
    norm_num
  · norm_num [overlapWeight, StyleMetrics.to_dict, List.lookup]

/-- Counterexample to C3 as stated: on a metrics value whose
`lexical_diversity` is `0` and a profile whose single target for it is `0`,
the deviation/overall pipeline yields similarity `1` (a zero target counts as
a perfect match), while `StyleProfile.calculate_similarity` skips every
metric whose target is not positive and yields `0`. -/
theorem calculate_similarity_vs_pipeline_counterexample :
    calculate_similarity (StyleMetrics.to_dict ⟨0, 0, 0, [], 0, 0⟩)
        [("lexical_diversity", ⟨0, 1, 1⟩)] = some 0 ∧
      (calculate_style_deviation (StyleMetrics.to_dict ⟨0, 0, 0, [], 0, 0⟩)
        [("lexical_diversity", ⟨0, 1, 1⟩)]).map
        calculate_overall_score = some 1 ∧
      (0 : ℚ) ≠ 1 := by
  refine ⟨?_, ?_, by norm_num⟩
  · norm_num [calculate_similarity, calcSimAux, StyleMetrics.to_dict,
      List.lookup]
  · norm_num [calculate_style_deviation, calculate_overall_score, metricScore,
      StyleMetrics.to_dict, List.lookup]

/-- Counterexample to C4 as stated: profile with two target metrics of weight
`1` each, computed metrics matching the first target (`1`) perfectly and not
containing the second metric at all. The pipeline similarity is `1`, not
`0.5`: the missing metric is silently skipped by the Deviation Scorer and
contributes neither score nor weight. -/
theorem two_metrics_one_missing_counterexample :
    (calculate_style_deviation (numDict [("a", (1 : ℚ))])
        [("a", ⟨1, 1, 1⟩), ("b", ⟨1, 1, 1⟩)]).map calculate_overall_score =
      some 1 ∧ (1 : ℚ) ≠ 1 / 2 := by
  have hba : (("b" : String) == "a") = false := by decide
  constructor
  · norm_num [calculate_style_deviation, calculate_overall_score, numDict,
      List.lookup, metricScore, hba]
  · norm_num

/-- C4 amended: with a profile of exactly two target metrics of weight `1`
each, computed metrics matching the first metric's target perfectly and not
containing the second metric at all, the scoring pipeline's overall
similarity is `1`: the matching metric contributes metric score `1`, and the
missing metric is skipped entirely, contributing neither score nor weight. -/
theorem perfect_first_missing_second_scores_one
    (n₁ n₂ : String) (hne : n₂ ≠ n₁) (t₁ c₂t tol₁ tol₂ : ℚ) :
    (calculate_style_deviation (numDict [(n₁, t₁)])
        [(n₁, ⟨t₁, tol₁, 1⟩), (n₂, ⟨c₂t, tol₂, 1⟩)]).map
      calculate_overall_score = some 1 := by
  have h1 : (numDict [(n₁, t₁)]).lookup n₁ = some (Val.num t₁) := by
    simp [numDict, List.lookup]
  have h2 : (numDict [(n₁, t₁)]).lookup n₂ = none := by
    simp [numDict, List.lookup, beq_eq_false_iff_ne.mpr hne]
  rw [calculate_style_deviation_cons, h1, calculate_style_deviation_cons, h2]
  have hrd : (if t₁ ≠ 0 then |t₁ - t₁| / t₁ else 0) = 0 := by
    by_cases h : t₁ = 0 <;> simp [h]
  simp [calculate_style_deviation, calculate_overall_score, metricScore, hrd]

/-- Witness for the amended C4 at metric names `a`, `b`, target `1`. -/
theorem perfect_first_missing_second_scores_one_witness :
    (calculate_style_deviation (numDict [("a", (1 : ℚ))])
        [("a", ⟨1, 1, 1⟩), ("b", ⟨1, 1, 1⟩)]).map calculate_overall_score =
      some 1 :=
  perfect_first_missing_second_scores_one "a" "b" (by decide) 1 1 1 1

/-- Whitespace characters of Python's `str.strip()` and the regex class
`\s` over the ASCII range the analyzer handles. -/
def isWs (c : Char) : Bool :=
  c = ' ' || c = '\t' || c = '\n' || c = '\r' || c = '\x0b' || c = '\x0c'

/-- Python `str.strip()`: remove leading and trailing whitespace. -/
def pyStrip (cs : List Char) : List Char :=
  ((cs.dropWhile isWs).reverse.dropWhile isWs).reverse

/-- Python `str.lower()` restricted to the character ranges the analyzer
works with: ASCII Latin `A`–`Z` and Russian Cyrillic `А`–`Я`, `Ё`. Other
characters are left unchanged. -/
def lowerChar (c : Char) : Char :=
  if 'A' ≤ c ∧ c ≤ 'Z' then Char.ofNat (c.toNat + 32)
  else if 'А' ≤ c ∧ c ≤ 'Я' then Char.ofNat (c.toNat + 32)
  else if c = 'Ё' then 'ё'
  else c

/-- Python `text.lower()` on a character list. -/
def lowerStr (cs : List Char) : List Char := cs.map lowerChar

/-- The character class `[а-яё]` of `word_pattern`
(`text_preprocessor.py`, line 13). -/
def isCyr (c : Char) : Bool := ('а' ≤ c && c ≤ 'я') || c = 'ё'

/-- The regex word-character class `\w` (which governs the `\b` boundaries of
`word_pattern`), restricted to the ASCII and Russian-Cyrillic ranges the
embedding's texts range over: Latin letters, digits, underscore, and
Cyrillic letters `а`–`я`, `А`–`Я`, `ё`, `Ё`. -/
def isWordChar (c : Char) : Bool :=
  c.isAlpha || c.isDigit || c = '_' ||
    ('а' ≤ c && c ≤ 'я') || ('А' ≤ c && c ≤ 'Я') || c = 'ё' || c = 'Ё'

/-- Scanner for `re.findall(r"\b[а-яё]+\b", text)`: a match is a maximal run
of `[а-яё]` characters whose neighbouring characters (when they exist) are
not word characters — inside a run there is no `\b`, so a match must cover
the whole run and both of its boundaries must separate a word character from
a non-word character or the string end. The first component of `pending`
records whether the current run's left boundary was a valid `\b`;
`prevWord` tells whether the previously consumed character was a word
character. -/
def scanCyrRuns : Option (Bool × Token) → Bool → List Char → List Token
  | some (ok, run), _, [] => if ok then [run.reverse] else []
  | none, _, [] => []
  | some (ok, run), _, c :: t =>
    if isCyr c then scanCyrRuns (some (ok, c :: run)) true t
    else
      (if ok && !isWordChar c then [run.reverse] else []) ++
        scanCyrRuns none (isWordChar c) t
  | none, prevWord, c :: t =>
    if isCyr c then scanCyrRuns (some (!prevWord, [c])) true t
    else scanCyrRuns none (isWordChar c) t

/-- `TextPreprocessor.tokenize_words` (`text_preprocessor.py`, lines
185–195), with `remove_stopwords=False` as used by the analyzer: lowercase,
find all `\b[а-яё]+\b` matches in order, then drop tokens of length `≤ 1`. -/
def tokenize_words (text : List Char) : List Token :=
  (scanCyrRuns none false (lowerStr text)).filter (fun w => w.length > 1)

/-- The sentence-ending class `[.!?]` of `sentence_endings`
(`text_preprocessor.py`, line 12). -/
def isSentenceEnd (c : Char) : Bool := c = '.' || c = '!' || c = '?'

/-- `TextPreprocessor.split_sentences`: `re.split(r"[.!?]+", text)`, then
strip each segment and drop the empty ones. Splitting on every single
ending character instead of on maximal runs inserts only empty segments,
which the final filter removes, so the results coincide. -/
def split_sentences (text : List Char) : List (List Char) :=
  ((text.splitOnP isSentenceEnd).map pyStrip).filter (fun s => !s.isEmpty)

/-- One pass of `re.sub(r"\s+", " ", text)`: every maximal whitespace run
becomes a single space. `prevWs` says whether the previous character was
whitespace (i.e. we are inside a run whose space was already emitted). -/
def collapseWsAux : Bool → List Char → List Char
  | _, [] => []
  | prevWs, c :: t =>
    if isWs c then
      if prevWs then collapseWsAux true t else ' ' :: collapseWsAux true t
    else c :: collapseWsAux false t

/-- One pass of `re.sub(r"\n+", "\n", text)`: every maximal newline run
becomes a single newline. -/
def collapseNlAux : Bool → List Char → List Char
  | _, [] => []
  | prevNl, c :: t =>
    if c = '\n' then
      if prevNl then collapseNlAux true t else '\n' :: collapseNlAux true t
    else c :: collapseNlAux false t

/-- The repeated-punctuation class `[.,!?;:-]` of
`re.sub(r"([.,!?;:-])\1+", r"\1", text)`. -/
def isRepPunct (c : Char) : Bool :=
  c = '.' || c = ',' || c = '!' || c = '?' || c = ';' || c = ':' || c = '-'

/-- One pass of `re.sub(r"([.,!?;:-])\1+", r"\1", text)`: drop every
punctuation character from that class that repeats its immediate
predecessor. -/
def collapsePunctAux : Option Char → List Char → List Char
  | _, [] => []
  | prev, c :: t =>
    if isRepPunct c && (some c == prev) then collapsePunctAux (some c) t
    else c :: collapsePunctAux (some c) t

/-- `TextPreprocessor.clean_text`: empty text stays empty; otherwise
lowercase, collapse whitespace runs to single spaces, collapse newline runs
(a no-op after the previous step), collapse repeated punctuation, and strip. -/
def clean_text (text : List Char) : List Char :=
  if text.isEmpty then []
  else
    pyStrip (collapsePunctAux none
      (collapseNlAux false (collapseWsAux false (lowerStr text))))

/-- `TextAnalyzer._calculate_lexical_diversity`: type-token ratio, `0` on an
empty token list; `len(set(words))` is the number of distinct tokens. -/
def lexical_diversity (words : List Token) : ℚ :=
  if words.isEmpty then 0
  else (words.dedup.length : ℚ) / (words.length : ℚ)

/-- `TextAnalyzer._calculate_formality_score`, with the two lexicons as
membership predicates (the loader supplies them as sets): `0` on an empty
token list; `0.5` when no token is in either lexicon; else
`formal_count / (formal_count + informal_count)`. -/
def formality_score (formal informal : Token → Bool)
    (words : List Token) : ℚ :=
  if words.isEmpty then 0
  else
    let formal_count := (words.filter (fun w => formal w)).length
    let informal_count := (words.filter (fun w => informal w)).length
    let total_special := formal_count + informal_count
    if total_special = 0 then 1 / 2
    else (formal_count : ℚ) / (total_special : ℚ)

set_option linter.unusedVariables false in
/-- `TextAnalyzer._calculate_readability_index`: `0` when there are no
sentences or no words, otherwise
`206.835 − 1.3·avgSentenceLen − 60.1·avgWordLen` clamped into `[0, 100]`
(`max(0.0, min(100.0, readability))`). The `text` argument is unused, as in
the source. -/
def readability_index (text : List Char) (sentences : List (List Char))
    (words : List Token) : ℚ :=
  if sentences.isEmpty || words.isEmpty then 0
  else
    let avg_sentence_len : ℚ := (words.length : ℚ) / (sentences.length : ℚ)
    let avg_word_len : ℚ :=
      ((words.map (fun w => w.length)).sum : ℚ) / (words.length : ℚ)
    let readability :=
      (206.835 : ℚ) - (1.3 : ℚ) * avg_sentence_len -
        (60.1 : ℚ) * avg_word_len
    max 0 (min 100 readability)

/-- `TextAnalyzer._calculate_pos_frequency`, with the morphological tagger as
a parameter: `tagger w = some tag` models a successful parse with that POS
tag, `tagger w = none` models both a tagger exception and a parse without a
POS tag — either way the token is counted under `"UNKN"`. Empty input yields
an empty mapping; otherwise each distinct tag maps to its count divided by
the total word count (the counter's key order is not observable through any
claim, so the distinct tags are listed via `dedup`). -/
def pos_frequency (tagger : Token → Option String)
    (words : List Token) : List (String × ℚ) :=
  if words.isEmpty then []
  else
    let tags := words.map (fun w => (tagger w).getD "UNKN")
    tags.dedup.map (fun t => (t, (tags.count t : ℚ) / (words.length : ℚ)))

/-- `TextAnalyzer._calculate_sentence_length_avg`: tokenize each sentence,
keep the word counts of the sentences with at least one word, and average
them; `0` when there are no sentences or none of them has words. -/
def sentence_length_avg (sentences : List (List Char)) : ℚ :=
  if sentences.isEmpty then 0
  else
    let word_counts :=
      (sentences.map (fun s => (tokenize_words s).length)).filter
        (fun n => n != 0)
    if word_counts.isEmpty then 0
    else (word_counts.sum : ℚ) / (word_counts.length : ℚ)

/-- `TextAnalyzer._calculate_word_length_avg`: mean character length of the
tokens, `0` on an empty token list. -/
def word_length_avg (words : List Token) : ℚ :=
  if words.isEmpty then 0
  else ((words.map (fun w => w.length)).sum : ℚ) / (words.length : ℚ)

/-- `TextAnalyzer.analyze_text` (`text_analyzer.py`, lines 31–62):
raise `ValueError` (`InputError` in the spec's taxonomy) when the text is
empty or its trimmed length is below 10; otherwise clean, tokenize, split
and assemble the complete `StyleMetrics`. The tagger and the two lexicons
are the analyzer's external collaborators. -/
def analyze_text (tagger : Token → Option String)
    (formal informal : Token → Bool) (text : List Char) :
    Except String StyleMetrics :=
  if text.isEmpty || (pyStrip text).length < 10 then
    Except.error "Текст слишком короткий для анализа"
  else
    let cleaned_text := clean_text text
    let words := tokenize_words cleaned_text
    let sentences := split_sentences cleaned_text
    Except.ok
      { lexical_diversity := lexical_diversity words
        formality_score := formality_score formal informal words
        readability_index := readability_index cleaned_text sentences words
        pos_frequency := pos_frequency tagger words
        sentence_length_avg := sentence_length_avg sentences
        word_length_avg := word_length_avg words }

/-- Counterexample to C5 as stated: the empty token list has zero tokens
from either lexicon, yet the formality score is `0`, not `0.5` — the
empty-input guard `if not words: return 0.0` fires before the
no-signal case. -/
theorem formality_score_empty_counterexample :
    formality_score (fun _ => false) (fun _ => false) [] = 0 ∧
      (0 : ℚ) ≠ 1 / 2 := ⟨rfl, by norm_num⟩

/-- C5 amended: for every pair of lexicons and every non-empty list of word
tokens, the formality score equals `f / (f + i)` where `f` and `i` count the
tokens in the formal and informal lexicon, and is exactly `0.5` when
`f + i = 0`; the empty token list yields `0`. -/
theorem formality_score_spec (formal informal : Token → Bool)
    (words : List Token) :
    (words ≠ [] →
      formality_score formal informal words =
        if (words.filter (fun w => formal w)).length +
            (words.filter (fun w => informal w)).length = 0 then 1 / 2
        else ((words.filter (fun w => formal w)).length : ℚ) /
          ((((words.filter (fun w => formal w)).length +
            (words.filter (fun w => informal w)).length : ℕ)) : ℚ)) ∧
    (words = [] → formality_score formal informal words = 0) := by
  constructor
  · intro hne
    have hem : words.isEmpty = false := by
      cases words with
      | nil => exact absurd rfl hne
      | cons a t => rfl
    simp only [formality_score, hem, Bool.false_eq_true, if_false]
  · intro h
    subst h
    rfl

/-- Witness for the amended C5: a single token found in neither lexicon
scores exactly `1/2`. -/
theorem formality_score_spec_witness :
    formality_score (fun _ => false) (fun _ => false) [['а']] = 1 / 2 := by
  have h := (formality_score_spec (fun _ => false) (fun _ => false)
    [['а']]).1 (by simp)
  simpa using h

/-- Counterexample to C6 as stated: the empty token sequence is vacuously
pairwise distinct, yet its lexical diversity is `0`, not `1` — the
"`= 1` iff all tokens distinct" equivalence fails there. -/
theorem lexical_diversity_empty_counterexample :
    lexical_diversity [] = 0 ∧ ([] : List Token).Nodup ∧ (0 : ℚ) ≠ 1 :=
  ⟨rfl, List.nodup_nil, by norm_num⟩

/-- C6 amended: lexical diversity is the number of distinct tokens divided
by the total number of tokens (`0` for the empty sequence), always lies in
`[0, 1]`, and for every non-empty sequence equals `1` if and only if the
tokens are pairwise distinct. -/
theorem lexical_diversity_spec (words : List Token) :
    lexical_diversity words =
      (if words = [] then 0
       else (words.dedup.length : ℚ) / (words.length : ℚ)) ∧
    0 ≤ lexical_diversity words ∧ lexical_diversity words ≤ 1 ∧
    (words ≠ [] → (lexical_diversity words = 1 ↔ words.Nodup)) := by
  cases words with
  | nil => exact ⟨rfl, le_refl 0, by norm_num [lexical_diversity], by simp⟩
  | cons a t =>
    have hlen : (0 : ℚ) < ((a :: t).length : ℚ) := by
      exact_mod_cast Nat.succ_pos t.length
    have hsub : (a :: t).dedup.length ≤ (a :: t).length :=
      ((a :: t).dedup_sublist).length_le
    have heq : lexical_diversity (a :: t) =
        ((a :: t).dedup.length : ℚ) / ((a :: t).length : ℚ) := rfl
    refine ⟨by simp [heq], ?_, ?_, ?_⟩
    · rw [heq]
      exact div_nonneg (Nat.cast_nonneg _) (le_of_lt hlen)
    · rw [heq, div_le_one hlen]
      exact_mod_cast hsub
    · intro _
      rw [heq, div_eq_one_iff_eq (ne_of_gt hlen)]
      constructor
      · intro h
        have hl : (a :: t).dedup.length = (a :: t).length := by exact_mod_cast h
        have : (a :: t).dedup = a :: t :=
          ((a :: t).dedup_sublist).eq_of_length hl
        exact List.dedup_eq_self.mp this
      · intro h
        rw [List.dedup_eq_self.mpr h]

/-- Witness for the amended C6: on a concrete non-empty sequence the
diversity-one characterisation holds. -/
theorem lexical_diversity_spec_witness :
    lexical_diversity [['а'], ['б']] = 1 ↔ ([['а'], ['б']] : List Token).Nodup :=
  (lexical_diversity_spec [['а'], ['б']]).2.2.2 (by simp)

/-- C7: the readability index equals
`206.835 − 1.3·avgSentenceLen − 60.1·avgWordLen` clamped into `[0, 100]`
whenever there are sentences and words, always lies in `[0, 100]`, and is
`0` when there are no sentences or no word tokens. -/
theorem readability_index_spec (text : List Char)
    (sentences : List (List Char)) (words : List Token) :
    (sentences ≠ [] → words ≠ [] →
      readability_index text sentences words =
        max 0 (min 100 ((206.835 : ℚ) -
          (1.3 : ℚ) * ((words.length : ℚ) / (sentences.length : ℚ)) -
          (60.1 : ℚ) *
            (((words.map (fun w => w.length)).sum : ℚ) /
              (words.length : ℚ))))) ∧
    0 ≤ readability_index text sentences words ∧
    readability_index text sentences words ≤ 100 ∧
    ((sentences = [] ∨ words = []) → readability_index text sentences words = 0) := by
  refine ⟨?_, ?_, ?_, ?_⟩
  · intro hs hw
    have hse : sentences.isEmpty = false := by
      cases sentences with
      | nil => exact absurd rfl hs
      | cons a t => rfl
    have hwe : words.isEmpty = false := by
      cases words with
      | nil => exact absurd rfl hw
      | cons a t => rfl
    simp only [readability_index, hse, hwe, Bool.or_self, Bool.false_eq_true,
      if_false]
  · unfold readability_index
    by_cases h : (sentences.isEmpty || words.isEmpty) = true
    · rw [if_pos h]
    · rw [if_neg h]
      exact le_max_left 0 _
  · unfold readability_index
    by_cases h : (sentences.isEmpty || words.isEmpty) = true
    · rw [if_pos h]; norm_num
    · rw [if_neg h]
      exact max_le (by norm_num) (min_le_left 100 _)
  · intro h
    have : (sentences.isEmpty || words.isEmpty) = true := by
      rcases h with h | h <;> subst h <;> simp
    simp [readability_index, this]

/-- Witness for C7 at one sentence and one two-character word. -/
theorem readability_index_spec_witness :
    readability_index [] [['а']] [['а', 'б']] =
      max 0 (min 100 ((206.835 : ℚ) - (1.3 : ℚ) * ((1 : ℚ) / (1 : ℚ)) -
        (60.1 : ℚ) * ((2 : ℚ) / (1 : ℚ)))) := by
  have h := (readability_index_spec [] [['а']] [['а', 'б']]).1
    (by simp) (by simp)
  simpa using h

/-- C8: `analyze_text` raises the input error exactly when the trimmed text
has fewer than 10 characters — the guard `not text or len(text.strip()) < 10`
is equivalent to `len(text.strip()) < 10`, since an empty text strips to
length `0` — and in the error case no (partial) StyleMetrics is produced. -/
theorem analyze_text_input_gate (tagger : Token → Option String)
    (formal informal : Token → Bool) (text : List Char) :
    ((∃ m, analyze_text tagger formal informal text = Except.ok m) ↔
      10 ≤ (pyStrip text).length) ∧
    ((pyStrip text).length < 10 →
      analyze_text tagger formal informal text =
        Except.error "Текст слишком короткий для анализа") := by
  constructor
  · constructor
    · rintro ⟨m, hm⟩
      by_contra hlt
      rw [not_le] at hlt
      have hc : (text.isEmpty || decide ((pyStrip text).length < 10)) = true := by
        simp [hlt]
      unfold analyze_text at hm
      rw [if_pos hc] at hm
      cases hm
    · intro hge
      have hne : text.isEmpty = false := by
        cases text with
        | nil => simp [pyStrip] at hge
        | cons a t => rfl
      have hc : (text.isEmpty || decide ((pyStrip text).length < 10)) = false := by
        simp [hne]
        omega
      unfold analyze_text
      rw [if_neg (by simp [hc])]
      exact ⟨_, rfl⟩
  · intro hlt
    have hc : (text.isEmpty || decide ((pyStrip text).length < 10)) = true := by
      simp [hlt]
    unfold analyze_text
    rw [if_pos hc]

/-- Witness for C8: a three-character text is rejected with the input
error. -/
theorem analyze_text_input_gate_witness :
    analyze_text (fun _ => none) (fun _ => false) (fun _ => false)
      "кот".data = Except.error "Текст слишком короткий для анализа" := by
  apply (analyze_text_input_gate (fun _ => none) (fun _ => false)
    (fun _ => false) "кот".data).2
  decide

theorem sum_map_div {α : Type} (l : List α) (f : α → ℚ) (d : ℚ) :
    (l.map (fun a => f a / d)).sum = (l.map f).sum / d := by
  induction l with
  | nil => simp
  | cons a t ih => simp [ih, add_div]

theorem sum_map_natCast {α : Type} (l : List α) (f : α → ℕ) :
    (l.map (fun a => (f a : ℚ))).sum = ((l.map f).sum : ℚ) := by
  induction l with
  | nil => simp
  | cons a t ih => simp [ih]

theorem lookup_map_pair (l : List String) (f : String → ℚ) (t : String)
    (ht : t ∈ l) :
    (l.map (fun x => (x, f x))).lookup t = some (f t) := by
  induction l with
  | nil => cases ht
  | cons x rest ih =>
    by_cases hx : t = x
    · subst hx
      simp [List.lookup]
    · have hmem : t ∈ rest := by
        rcases List.mem_cons.mp ht with h | h
        · exact absurd h hx
        · exact h
      have hne : (t == x) = false := beq_eq_false_iff_ne.mpr hx
      simp only [List.map_cons, List.lookup, hne]
      exact ih hmem

/-- C9: the POS-frequency mapping is empty exactly on the empty token list;
on a non-empty list its values are non-negative and sum to exactly `1`; and
a token on which the tagger fails is counted under the `"UNKN"` tag — the
computation never aborts, and the `"UNKN"` entry carries the full share of
the failed (or untagged) tokens. -/
theorem pos_frequency_spec (tagger : Token → Option String)
    (words : List Token) :
    (words = [] → pos_frequency tagger words = []) ∧
    (words ≠ [] →
      (∀ p ∈ pos_frequency tagger words, 0 ≤ (p : String × ℚ).2) ∧
      ((pos_frequency tagger words).map (fun p => p.2)).sum = 1) ∧
    (∀ w ∈ words, tagger w = none →
      (pos_frequency tagger words).lookup "UNKN" =
        some (((words.map (fun w => (tagger w).getD "UNKN")).count "UNKN" : ℚ) /
          (words.length : ℚ))) := by
  refine ⟨?_, ?_, ?_⟩
  · rintro rfl
    rfl
  · intro hne
    have hem : words.isEmpty = false := by
      cases words with
      | nil => exact absurd rfl hne
      | cons a t => rfl
    have hposf : pos_frequency tagger words =
        (words.map (fun w => (tagger w).getD "UNKN")).dedup.map
          (fun t => (t, (((words.map (fun w => (tagger w).getD "UNKN")).count t : ℚ)) /
            (words.length : ℚ))) := by
      simp only [pos_frequency, hem, Bool.false_eq_true, if_false]
    have hlen0 : words.length ≠ 0 := by
      cases words with
      | nil => exact absurd rfl hne
      | cons a t => simp
    constructor
    · intro p hp
      rw [hposf] at hp
      rcases List.mem_map.mp hp with ⟨t, _, rfl⟩
      exact div_nonneg (Nat.cast_nonneg _) (Nat.cast_nonneg _)
    · rw [hposf, List.map_map]
      have hcomp : ((fun p => (p : String × ℚ).2) ∘
          (fun t => (t, (((words.map (fun w => (tagger w).getD "UNKN")).count t : ℚ)) /
            (words.length : ℚ)))) =
          (fun t => (((words.map (fun w => (tagger w).getD "UNKN")).count t : ℚ)) /
            (words.length : ℚ)) := rfl
      rw [hcomp, sum_map_div, sum_map_natCast,
        List.sum_map_count_dedup_eq_length, List.length_map]
      exact div_self (by exact_mod_cast hlen0)
  · intro w hw htag
    have hne : words ≠ [] := List.ne_nil_of_mem hw
    have hem : words.isEmpty = false := by
      cases words with
      | nil => exact absurd rfl hne
      | cons a t => rfl
    have hmem : "UNKN" ∈ (words.map (fun w => (tagger w).getD "UNKN")).dedup := by
      rw [List.mem_dedup]
      exact List.mem_map.mpr ⟨w, hw, by rw [htag]; rfl⟩
    simp only [pos_frequency, hem, Bool.false_eq_true, if_false]
    exact lookup_map_pair _ _ _ hmem

/-- Witness for C9: a single token on which the tagger raises is counted
under `"UNKN"` with frequency `1`. -/
theorem pos_frequency_spec_witness :
    (pos_frequency (fun _ => none) [['а', 'б']]).lookup "UNKN" =
      some 1 := by
  have h := (pos_frequency_spec (fun _ => none) [['а', 'б']]).2.2
    ['а', 'б'] (by simp) rfl
  simpa using h

/-- The `[а-яё]` run starting at index `i` of `cs` (empty when the character
at `i` is not in the class or `i` is out of range). -/
def runAt (cs : List Char) (i : ℕ) : Token := (cs.drop i).takeWhile isCyr

/-- Right-boundary check of a `\b[а-яё]+\b` match within the suffix `cs`:
the first character after the `[а-яё]` run (if any) must not be a word
character. -/
def followerOk (cs : List Char) : Bool :=
  match cs.dropWhile isCyr with
  | [] => true
  | c :: _ => !isWordChar c

/-- Left-boundary check at index `i`: the character at `i − 1` (when `i > 0`)
must not be a word character; at `i = 0` the flag `b` tells whether a word
character immediately precedes the analysed suffix. -/
def leftOk (cs : List Char) (b : Bool) : ℕ → Bool
  | 0 => !b
  | j + 1 =>
    match cs[j]? with
    | none => true
    | some c => !isWordChar c

/-- Index `i` starts a `\b[а-яё]+\b` match of the regex semantics: a
non-empty `[а-яё]` run begins there, its left neighbour is not a word
character, and neither is the character following the run. -/
def boundedRunStart (cs : List Char) (b : Bool) (i : ℕ) : Bool :=
  !(runAt cs i).isEmpty && leftOk cs b i && followerOk (cs.drop i)

/-- Index `i` starts a maximal `[а-яё]` run — the claim's reading of
`tokenize_words`, with no `\b` word-boundary requirement: the left
neighbour merely must not itself be in `[а-яё]`. -/
def maxRunStart (cs : List Char) (i : ℕ) : Bool :=
  !(runAt cs i).isEmpty &&
    (match i with
     | 0 => true
     | j + 1 =>
       match cs[j]? with
       | none => true
       | some c => !isCyr c)

/-- The claim's specification of `tokenize_words`: all maximal runs of
`[а-яё]` in the lowercased text, in order of occurrence, single-character
runs discarded. -/
def specMaxRunTokens (text : List Char) : List Token :=
  ((List.range (lowerStr text).length).filterMap
    (fun i => if maxRunStart (lowerStr text) i then
        some (runAt (lowerStr text) i) else none)).filter
    (fun w => w.length > 1)

/-- The amended specification: all maximal runs of `[а-яё]` in the
lowercased text that are not adjacent to any other word character, in order
of occurrence, single-character runs discarded. -/
def specBoundedTokens (text : List Char) : List Token :=
  ((List.range (lowerStr text).length).filterMap
    (fun i => if boundedRunStart (lowerStr text) false i then
        some (runAt (lowerStr text) i) else none)).filter
    (fun w => w.length > 1)

theorem isCyr_isWordChar {c : Char} (h : isCyr c = true) :
    isWordChar c = true := by
  simp only [isCyr, Bool.or_eq_true, Bool.and_eq_true, decide_eq_true_eq] at h
  simp only [isWordChar, Bool.or_eq_true, Bool.and_eq_true, decide_eq_true_eq]
  tauto

theorem dropWhile_head_false {p : Char → Bool} :
    ∀ (l : List Char) c t, l.dropWhile p = c :: t → p c = false := by
  intro l
  induction l with
  | nil => intro c t h; cases h
  | cons a l ih =>
    intro c t h
    by_cases ha : p a = true
    · rw [List.dropWhile_cons_of_pos ha] at h
      exact ih c t h
    · rw [List.dropWhile_cons_of_neg ha] at h
      cases h
      simpa using ha

theorem takeWhile_append_of_all {run r' : List Char}
    (hcyr : ∀ x ∈ run, isCyr x = true)
    (hr' : ∀ d t', r' = d :: t' → isCyr d = false) :
    (run ++ r').takeWhile isCyr = run := by
  induction run with
  | nil =>
    rw [List.nil_append]
    cases r' with
    | nil => rfl
    | cons d t' =>
      exact List.takeWhile_cons_of_neg (by simp [hr' d t' rfl])
  | cons a run ih =>
    have ha : isCyr a = true := hcyr a (List.mem_cons_self _ _)
    rw [List.cons_append, List.takeWhile_cons_of_pos ha,
      ih (fun x hx => hcyr x (List.mem_cons_of_mem _ hx))]

theorem dropWhile_append_of_all {run r' : List Char}
    (hcyr : ∀ x ∈ run, isCyr x = true)
    (hr' : ∀ d t', r' = d :: t' → isCyr d = false) :
    (run ++ r').dropWhile isCyr = r' := by
  induction run with
  | nil =>
    rw [List.nil_append]
    cases r' with
    | nil => rfl
    | cons d t' =>
      exact List.dropWhile_cons_of_neg (by simp [hr' d t' rfl])
  | cons a run ih =>
    have ha : isCyr a = true := hcyr a (List.mem_cons_self _ _)
    rw [List.cons_append, List.dropWhile_cons_of_pos ha,
      ih (fun x hx => hcyr x (List.mem_cons_of_mem _ hx))]

theorem scanCyrRuns_pending (ok : Bool) :
    ∀ (cs : List Char) (run : Token) (b : Bool),
      scanCyrRuns (some (ok, run)) b cs =
        (if ok && followerOk cs then [run.reverse ++ cs.takeWhile isCyr]
         else []) ++ scanCyrRuns none false (cs.dropWhile isCyr) := by
  intro cs
  induction cs with
  | nil =>
    intro run b
    cases ok <;> simp [scanCyrRuns, followerOk]
  | cons c t ih =>
    intro run b
    by_cases hc : isCyr c = true
    · rw [show scanCyrRuns (some (ok, run)) b (c :: t) =
          scanCyrRuns (some (ok, c :: run)) true t from by
        simp [scanCyrRuns, hc]]
      rw [ih (c :: run) true]
      have hf : followerOk (c :: t) = followerOk t := by
        simp [followerOk, List.dropWhile_cons_of_pos hc]
      rw [hf, List.takeWhile_cons_of_pos hc, List.dropWhile_cons_of_pos hc]
      simp [List.reverse_cons, List.append_assoc]
    · have hcf : isCyr c = false := by simpa using hc
      rw [show scanCyrRuns (some (ok, run)) b (c :: t) =
          (if ok && !isWordChar c then [run.reverse] else []) ++
            scanCyrRuns none (isWordChar c) t from by
        simp [scanCyrRuns, hcf]]
      have htw : List.takeWhile isCyr (c :: t) = [] :=
        List.takeWhile_cons_of_neg (by simp [hcf])
      have hdw : List.dropWhile isCyr (c :: t) = c :: t :=
        List.dropWhile_cons_of_neg (by simp [hcf])
      have hf : followerOk (c :: t) = !isWordChar c := by
        simp [followerOk, hdw]
      rw [hf, htw, hdw]
      rw [show scanCyrRuns none false (c :: t) =
          scanCyrRuns none (isWordChar c) t from by simp [scanCyrRuns, hcf]]
      simp

theorem takeWhile_eq_nil_of_head {p : Char → Bool} (l : List Char)
    (h : ∀ d t', l = d :: t' → p d = false) : l.takeWhile p = [] := by
  cases l with
  | nil => rfl
  | cons d t' => exact List.takeWhile_cons_of_neg (by simp [h d t' rfl])

theorem filterMap_boundedRunStart_split (run r' : List Char) (b : Bool)
    (hne : run ≠ [])
    (hcyr : ∀ x ∈ run, isCyr x = true)
    (hr' : ∀ d t', r' = d :: t' → isCyr d = false) :
    (List.range (run ++ r').length).filterMap
      (fun i => if boundedRunStart (run ++ r') b i then
          some (runAt (run ++ r') i) else none) =
      (if !b && followerOk (run ++ r') then [run] else []) ++
        (List.range r'.length).filterMap
          (fun j => if boundedRunStart r' false j then some (runAt r' j)
            else none) := by
  have htw : (run ++ r').takeWhile isCyr = run := takeWhile_append_of_all hcyr hr'
  have hre : run.isEmpty = false := by
    cases run with
    | nil => exact absurd rfl hne
    | cons a l => rfl
  rw [List.length_append, List.range_add, List.filterMap_append,
    List.filterMap_map]
  congr 1
  · -- the block of indices inside the leading run
    obtain ⟨k, hk⟩ : ∃ k, run.length = k + 1 := by
      cases run with
      | nil => exact absurd rfl hne
      | cons a l => exact ⟨l.length, rfl⟩
    have hf0run : runAt (run ++ r') 0 = run := by
      simp [runAt, htw]
    have hf0 : boundedRunStart (run ++ r') b 0 =
        (!b && followerOk (run ++ r')) := by
      simp [boundedRunStart, leftOk, hf0run, hre]
    have hnone : ∀ j ∈ List.range k,
        ((fun i => if boundedRunStart (run ++ r') b i then
          some (runAt (run ++ r') i) else none) ∘ Nat.succ) j = none := by
      intro j hj
      rw [List.mem_range] at hj
      have hjk : j < run.length := by omega
      have hget1 : (run ++ r')[j]? = run[j]? := List.getElem?_append_left hjk
      obtain ⟨x, hx⟩ : ∃ x, run[j]? = some x :=
        ⟨_, List.getElem?_eq_getElem hjk⟩
      have hxmem : x ∈ run := by
        rcases List.getElem?_eq_some.mp hx with ⟨h1, h2⟩
        exact h2 ▸ List.getElem_mem h1
      have hxw : isWordChar x = true := isCyr_isWordChar (hcyr x hxmem)
      have hleft : leftOk (run ++ r') b (j + 1) = false := by
        simp [leftOk, hget1, hx, hxw]
      simp [Function.comp, boundedRunStart, hleft]
    rw [hk, List.range_succ_eq_map, List.filterMap_cons, List.filterMap_map,
      List.filterMap_eq_nil_iff.mpr hnone]
    cases hcond : (!b && followerOk (run ++ r')) <;>
      simp [hf0, hf0run, hcond]
  · -- the block of indices inside the remainder
    have hpt : ((fun i => if boundedRunStart (run ++ r') b i then
        some (runAt (run ++ r') i) else none) ∘ (run.length + ·)) =
        (fun j => if boundedRunStart r' false j then some (runAt r' j)
          else none) := by
      funext j
      simp only [Function.comp]
      cases j with
      | zero =>
        have hrt : r'.takeWhile isCyr = [] := takeWhile_eq_nil_of_head r' hr'
        have hd0 : (run ++ r').drop run.length = r' := by
          have hd := @List.drop_append Char run r' 0
          simp only [Nat.add_zero, List.drop_zero] at hd
          exact hd
        have h1 : runAt (run ++ r') run.length = [] := by
          simp [runAt, hd0, hrt]
        have h2 : runAt r' 0 = [] := by simp [runAt, hrt]
        simp [boundedRunStart, h1, h2]
      | succ m =>
        have hget : (run ++ r')[run.length + m]? = r'[m]? := by
          rw [List.getElem?_append_right (Nat.le_add_right _ _)]
          congr 1
          omega
        have hdropj : (run ++ r').drop (run.length + (m + 1)) =
            r'.drop (m + 1) := List.drop_append (m + 1)
        have hrAt : runAt (run ++ r') (run.length + (m + 1)) =
            runAt r' (m + 1) := by
          simp [runAt, hdropj]
        have hfol : followerOk ((run ++ r').drop (run.length + (m + 1))) =
            followerOk (r'.drop (m + 1)) := by rw [hdropj]
        have hle : leftOk (run ++ r') b (run.length + (m + 1)) =
            leftOk r' false (m + 1) := by
          show leftOk (run ++ r') b ((run.length + m) + 1) =
            leftOk r' false (m + 1)
          simp only [leftOk, hget]
        simp only [boundedRunStart, hrAt, hfol, hle]
    rw [hpt]

theorem scanCyrRuns_none_eq (N : ℕ) :
    ∀ (cs : List Char), cs.length ≤ N → ∀ b,
      scanCyrRuns none b cs =
        (List.range cs.length).filterMap
          (fun i => if boundedRunStart cs b i then some (runAt cs i)
            else none) := by
  induction N with
  | zero =>
    intro cs hlen b
    have : cs = [] := List.length_eq_zero.mp (Nat.le_zero.mp hlen)
    subst this
    simp [scanCyrRuns]
  | succ N ih =>
    intro cs hlen b
    cases cs with
    | nil => simp [scanCyrRuns]
    | cons c t =>
      by_cases hc : isCyr c = true
      · -- a run starts here
        have htcons : List.takeWhile isCyr (c :: t) =
            c :: List.takeWhile isCyr t := List.takeWhile_cons_of_pos hc
        have hdcons : List.dropWhile isCyr (c :: t) =
            List.dropWhile isCyr t := List.dropWhile_cons_of_pos hc
        have hsplit : List.takeWhile isCyr (c :: t) ++
            List.dropWhile isCyr (c :: t) = c :: t :=
          List.takeWhile_append_dropWhile isCyr (c :: t)
        rw [show scanCyrRuns none b (c :: t) =
            scanCyrRuns (some (!b, [c])) true t from by
          simp [scanCyrRuns, hc]]
        rw [scanCyrRuns_pending]
        have hlen' : (List.dropWhile isCyr t).length ≤ N := by
          have h1 : (List.dropWhile isCyr t).length ≤ t.length :=
            (List.dropWhile_sublist isCyr).length_le
          simp only [List.length_cons] at hlen
          omega
        rw [ih (List.dropWhile isCyr t) hlen' false]
        have hrun_ne : List.takeWhile isCyr (c :: t) ≠ [] := by
          rw [htcons]; simp
        have hcyr_run : ∀ x ∈ List.takeWhile isCyr (c :: t), isCyr x = true :=
          fun x hx => List.mem_takeWhile_imp hx
        have hr'head : ∀ d t', List.dropWhile isCyr (c :: t) = d :: t' →
            isCyr d = false := by
          rw [hdcons]
          exact fun d t' h => dropWhile_head_false t d t' h
        have hsl := filterMap_boundedRunStart_split
          (List.takeWhile isCyr (c :: t)) (List.dropWhile isCyr (c :: t)) b
          hrun_ne hcyr_run hr'head
        rw [hsplit] at hsl
        rw [hsl]
        congr 1
        · have hfeq : followerOk (c :: t) = followerOk t := by
            simp [followerOk, hdcons]
          rw [hfeq, htcons]
          simp
        · rw [hdcons]
      · -- no run starts here
        have hcf : isCyr c = false := by simpa using hc
        rw [show scanCyrRuns none b (c :: t) =
            scanCyrRuns none (isWordChar c) t from by simp [scanCyrRuns, hcf]]
        have hlen' : t.length ≤ N := by
          simp only [List.length_cons] at hlen
          omega
        rw [ih t hlen' (isWordChar c)]
        have h0 : (if boundedRunStart (c :: t) b 0 then
            some (runAt (c :: t) 0) else none) = none := by
          have hrt : runAt (c :: t) 0 = [] := by
            simp [runAt, List.takeWhile_cons_of_neg (show ¬isCyr c = true by
              simp [hcf])]
          simp [boundedRunStart, hrt]
        have hfun : ((fun i => if boundedRunStart (c :: t) b i then
            some (runAt (c :: t) i) else none) ∘ Nat.succ) =
            (fun j => if boundedRunStart t (isWordChar c) j then
              some (runAt t j) else none) := by
          funext j
          simp only [Function.comp]
          have hrAt : runAt (c :: t) (j + 1) = runAt t j := rfl
          have hfol : followerOk ((c :: t).drop (j + 1)) =
              followerOk (t.drop j) := rfl
          have hleft : leftOk (c :: t) b (j + 1) = leftOk t (isWordChar c) j := by
            cases j with
            | zero => simp [leftOk]
            | succ m => simp [leftOk]
          simp only [boundedRunStart, hrAt, hfol, hleft]
        rw [show (c :: t).length = t.length + 1 from rfl,
          List.range_succ_eq_map]
        simp only [List.filterMap_cons, List.filterMap_map, h0, hfun]

/-- Counterexample to C10 as stated: in `"тест123"` the maximal `[а-яё]` run
`тест` is immediately followed by the word character `1`, so the `\b` word
boundary of `word_pattern` fails and `tokenize_words` returns nothing, while
the claim's maximal-run reading yields `["тест"]`. -/
theorem tokenize_words_maximal_runs_counterexample :
    tokenize_words "тест123".data = [] ∧
      specMaxRunTokens "тест123".data = ["тест".data] ∧
      ([] : List Token) ≠ ["тест".data] := by
  refine ⟨by decide, by decide, by decide⟩

/-- C10 amended: `tokenize_words` returns exactly the maximal runs of
Cyrillic letters (`[а-яё]`, case-insensitive) that are not immediately
preceded or followed by another word character (Latin letter, digit,
underscore or other Cyrillic letter), case-folded, in order of occurrence,
with single-character runs discarded; in particular
`tokenize_words "Это тест, тест!"` yields `["это", "тест", "тест"]`. -/
theorem tokenize_words_eq_bounded_runs :
    (∀ text : List Char, tokenize_words text = specBoundedTokens text) ∧
      tokenize_words "Это тест, тест!".data =
        ["это".data, "тест".data, "тест".data] := by
  constructor
  · intro text
    unfold tokenize_words specBoundedTokens
    rw [scanCyrRuns_none_eq (lowerStr text).length (lowerStr text) le_rfl false]
  · decide
